import Mathlib

/-!
Verification of the route-annotation enrichment and derivation pipeline.

The development shallowly embeds the TypeScript module that defines
`pathExtensions`, `isRouteSupplier`, `enrichRoute` and `Routes.populate`,
together with the POSIX path helpers (`basename`, `dirname`, `join`) it
imports from the standard path library.  JavaScript runtime values that the
code manipulates (fence attributes, route records) are modelled by a small
JSON-with-undefined value type; in-place mutation of a record is modelled by
returning the updated record; the issue sink is modelled by returning the
list of issues registered during the call; a thrown TypeError is modelled by
an `Except.error` result.
-/

/-! ## Generic JavaScript object primitives

A JavaScript object is modelled as an association list of fields in
insertion order.  Property read takes the first (only) matching field;
property write replaces the value in place when the key exists and appends
the field otherwise, exactly as JS assignment preserves key order. -/

def lookupField {α : Type} : List (String × α) → String → Option α
  | [], _ => none
  | (k, v) :: rest, key => if k = key then some v else lookupField rest key

def setField {α : Type} (fs : List (String × α)) (key : String) (v : α) :
    List (String × α) :=
  if fs.any (fun kv => kv.1 = key) then
    fs.map (fun kv => if kv.1 = key then (key, v) else kv)
  else
    fs ++ [(key, v)]

/-! ## POSIX path primitives

Faithful functional translations of the POSIX `basename`, `dirname`,
`normalize` and `join` of the standard path library the source imports.
Characters are handled through the underlying character list of a string. -/

def isPathSep (c : Char) : Bool := c = '/'

def dropWhileEndP {α : Type} (p : α → Bool) (l : List α) : List α :=
  (l.reverse.dropWhile p).reverse

def takeWhileEndP {α : Type} (p : α → Bool) (l : List α) : List α :=
  (l.reverse.takeWhile p).reverse

/-- The last path segment of the source library: the trailing run of
non-separator characters once trailing separators are ignored; a string of
only separators (or the empty string) is returned whole. -/
def lastPathSegmentL (l : List Char) : List Char :=
  if l.all isPathSep then l
  else takeWhileEndP (fun c => !(isPathSep c)) (dropWhileEndP isPathSep l)

/-- Strip trailing separators but never strip the first character. -/
def stripSepsEndL : List Char → List Char
  | [] => []
  | c :: cs => c :: dropWhileEndP isPathSep cs

def basename (path : String) : String :=
  ⟨stripSepsEndL (lastPathSegmentL path.toList)⟩

def dirnameL (l : List Char) : List Char :=
  let t := dropWhileEndP isPathSep l
  let u := dropWhileEndP (fun c => !(isPathSep c)) t
  if 2 ≤ u.length then stripSepsEndL u.dropLast
  else if l.head? = some '/' then ['/'] else ['.']

def dirname (path : String) : String := ⟨dirnameL path.toList⟩

/-- Split a character list on a character, keeping empty pieces, as the
JavaScript `String.prototype.split` with a one-character separator does. -/
def splitCh (c : Char) : List Char → List (List Char)
  | [] => [[]]
  | x :: xs =>
    match splitCh c xs with
    | [] => [[]]
    | h :: t => if x = c then [] :: h :: t else (x :: h) :: t

/-- One step of the segment normalization stack of the path library: empty
and single-dot segments vanish, a double-dot segment pops a previous real
segment and is kept only above the root of a relative path. -/
def normSeg (allowUp : Bool) (stack : List (List Char)) (seg : List Char) :
    List (List Char) :=
  if seg = [] || seg = ['.'] then stack
  else if seg = ['.', '.'] then
    match stack with
    | [] => if allowUp then [seg] else []
    | top :: rest =>
      if top = ['.', '.'] then (if allowUp then seg :: stack else stack)
      else rest
  else seg :: stack

def normalizeL (l : List Char) : List Char :=
  let isAbs := l.head? = some '/'
  let trailing := l.getLast? = some '/'
  let segs := splitCh '/' l
  let stack := segs.foldl (normSeg (!isAbs)) []
  let body := List.intercalate ['/'] stack.reverse
  let body := if body = [] && !isAbs then ['.'] else body
  let body := if body ≠ [] && trailing then body ++ ['/'] else body
  if isAbs then '/' :: body else body

/-- Two-argument POSIX `join` of the path library: non-empty parts are glued
with a separator and the result normalized; two empty parts give a dot. -/
def join (a b : String) : String :=
  let parts := [a, b].filter (fun s => s ≠ "")
  let joined := String.intercalate "/" parts
  if joined = "" then "." else ⟨normalizeL joined.toList⟩

/-! ## Path extension derivation -/

/-- The dot-split parts of a name, as the JavaScript split(".") produces
them. -/
def splitParts (name : String) : List String :=
  (splitCh '.' name.toList).map (fun l => (⟨l⟩ : String))

/-- The indexed map of the source: every dot-split extension candidate is
re-prefixed with a dot except the very last one, which stays bare. -/
def dotPrefixAllButLast (l : List String) : List String :=
  l.mapIdx (fun i e => if i < l.length - 1 then "." ++ e else e)

structure PathParts where
  basename : String
  extensions : List String
  terminal : String
  /-- The thunk of the source returns either a string or the sentinel
  `false`; the sentinel is modelled by `none`. -/
  autoMaterializable : Option String
deriving DecidableEq

def pathExtensions (path : String) : PathParts :=
  let name := basename path
  let parts := splitParts name
  let exts := dotPrefixAllButLast (parts.drop 1)
  { basename := name
    extensions := exts
    terminal := exts.getLastD ""
    autoMaterializable :=
      if exts.length < 2 then none
      else
        let base := parts.headD ""
        let penultimate := parts.getD (parts.length - 2) ""
        some (join (dirname path)
          (base ++ "." ++
            String.intercalate "." ((splitParts penultimate).dropLast) ++
            "auto." ++ penultimate)) }

/-! ## JavaScript runtime values

The fence attributes and the route record are dynamic JavaScript values; the
model covers undefined, null, booleans, numbers, strings, arrays and plain
objects.  Numbers are modelled as integers: no claim involves non-integral
arithmetic, only type tags matter to the schema. -/

inductive JVal where
  | undef : JVal
  | null : JVal
  | bool (b : Bool) : JVal
  | num (n : Int) : JVal
  | str (s : String) : JVal
  | arr (elems : List JVal) : JVal
  | obj (fields : List (String × JVal)) : JVal

/-- JavaScript truthiness is false exactly on undefined, null, false, zero
and the empty string (NaN cannot arise in the integer model). -/
def jsFalsy : JVal → Bool
  | .undef => true
  | .null => true
  | .bool b => !b
  | .num n => n == 0
  | .str s => s == ""
  | .arr _ => false
  | .obj _ => false

/-- The JavaScript typeof operator answers "object" for null, arrays and
plain objects alike. -/
def jsTypeofIsObject : JVal → Bool
  | .null => true
  | .arr _ => true
  | .obj _ => true
  | _ => false

/-- Source guard: the value is truthy, of typeof "object", owns a `route`
key, and that key holds a value of typeof "object".  Arrays pass the first
two tests but own no `route` key; null fails truthiness.  Crucially a
`route` key holding null passes the final typeof test. -/
def isRouteSupplier : JVal → Bool
  | .obj fields =>
    match lookupField fields "route" with
    | some v => jsTypeofIsObject v
    | none => false
  | _ => false

/-! ## Strict route schema

Functional model of the result of a safe structural parse of the strict
route schema: required string fields `path` and `caption`, optional typed
fields, and rejection of any unknown key. -/

mutual
def isJsonValue : JVal → Bool
  | .undef => false
  | .null => true
  | .bool _ => true
  | .num _ => true
  | .str _ => true
  | .arr xs => isJsonValueList xs
  | .obj fs => isJsonValueFields fs
def isJsonValueList : List JVal → Bool
  | [] => true
  | x :: xs => isJsonValue x && isJsonValueList xs
def isJsonValueFields : List (String × JVal) → Bool
  | [] => true
  | kv :: fs => isJsonValue kv.2 && isJsonValueFields fs
end

def isStr : JVal → Bool
  | .str _ => true
  | _ => false

def isNum : JVal → Bool
  | .num _ => true
  | _ => false

def isStrArr : JVal → Bool
  | .arr xs => xs.all isStr
  | _ => false

/-- A child entry must be a plain object owning a string `path`; the inner
schema is not strict, extra keys are allowed there. -/
def isChildEntry : JVal → Bool
  | .obj fs =>
    match lookupField fs "path" with
    | some (.str _) => true
    | _ => false
  | _ => false

def isChildrenArr : JVal → Bool
  | .arr xs => xs.all isChildEntry
  | _ => false

/-- An optional field accepts undefined in addition to its base type. -/
def optOk (check : JVal → Bool) : JVal → Bool
  | .undef => true
  | v => check v

/-- Per-key check of a present field of the route record; any key outside
the enumerated shape fails, which is the strictness of the schema. -/
def routeFieldOk (k : String) (v : JVal) : Bool :=
  if k = "path" then isStr v
  else if k = "caption" then isStr v
  else if ["pathBasename", "pathBasenameNoExtn", "pathDirname",
      "pathExtnTerminal", "url", "title", "abbreviatedCaption",
      "description"].contains k then optOk isStr v
  else if k = "pathExtns" then optOk isStrArr v
  else if k = "siblingOrder" then optOk isNum v
  else if k = "elaboration" then optOk isJsonValue v
  else if k = "children" then optOk isChildrenArr v
  else false

/-- Whether the safe parse of the strict route schema succeeds on a plain
object with the given fields: the required string fields must be present as
strings and every present field must satisfy its per-key check. -/
def schemaAccepts (fs : List (String × JVal)) : Bool :=
  isStr ((lookupField fs "path").getD .undef) &&
  isStr ((lookupField fs "caption").getD .undef) &&
  fs.all (fun kv => routeFieldOk kv.1 kv.2)

/-! ## The enrichment mutator

The document-cell carrier and the mutation context are modelled from their
use in the source: the carrier exposes dynamic attributes, an optional fence
info string and a line span; the context exposes the notebook provenance.
The issue sink is modelled by the returned issue list and a thrown
TypeError by the error branch of the result. -/

structure CodeCell where
  attrs : JVal
  info : Option String
  startLine : Nat
  endLine : Nat

structure EnrichContext where
  provenance : String
deriving DecidableEq

structure Issue where
  kind : String
  disposition : String
  message : String
  provenance : String
  startLine : Nat
  endLine : Nat
deriving DecidableEq

inductive JsError where
  | typeError (msg : String) : JsError
deriving DecidableEq

/-- The fence info string is truthy when present and non-empty. -/
def infoTruthy : Option String → Bool
  | none => false
  | some s => s != ""

/-- Step 1 of the mutator body: when the route path is falsy and the cell
carries a truthy info string, the path defaults to that info string. -/
def defaultPath (info : Option String) (rf : List (String × JVal)) :
    List (String × JVal) :=
  if jsFalsy ((lookupField rf "path").getD .undef) && infoTruthy info then
    setField rf "path" (.str (info.getD ""))
  else rf

/-- Step 2 of the mutator body: the five derived fields are overwritten on
the route record from the path string. -/
def deriveFields (rf : List (String × JVal)) (p : String) :
    List (String × JVal) :=
  let extns := pathExtensions p
  let rf := setField rf "pathBasename" (.str extns.basename)
  let rf := setField rf "pathBasenameNoExtn"
    (.str ((splitParts extns.basename).headD ""))
  let rf := setField rf "pathDirname" (.str (dirname p))
  let rf := setField rf "pathExtnTerminal" (.str extns.terminal)
  setField rf "pathExtns" (.arr (extns.extensions.map JVal.str))

/-- The issue the mutator registers when the safe parse fails.  The message
the source builds from the prettified structural error is abstracted to its
fixed prefix; no property of interest depends on the message text. -/
def mkRouteIssue (ctx : EnrichContext) (cell : CodeCell) : Issue :=
  { kind := "fence-attrs-json5-parse"
    disposition := "error"
    message := "Zod error parsing route"
    provenance := ctx.provenance
    startLine := cell.startLine
    endLine := cell.endLine }

/-- The enrichment mutator.  A carrier that fails the capability guard is
returned untouched with no issue.  A null route value passes the guard and
the subsequent property read throws.  An array route value passes the guard,
reads an undefined path, and proceeds only when the info default applies; an
array never satisfies the object schema, so one issue is registered (named
properties the source would set on such an array are outside the JSON-level
view of the attributes and are not represented).  A plain-object route is
defaulted, derived and validated; a non-string path at derivation time makes
the path library throw. -/
def enrichRoute (cell : CodeCell) (ctx : EnrichContext) :
    Except JsError (CodeCell × List Issue) :=
  if isRouteSupplier cell.attrs then
    match cell.attrs with
    | .obj attrsFields =>
      match lookupField attrsFields "route" with
      | some (.obj rf0) =>
        let rf1 := defaultPath cell.info rf0
        match (lookupField rf1 "path").getD .undef with
        | .str p =>
          let rf2 := deriveFields rf1 p
          let issues := if schemaAccepts rf2 then [] else [mkRouteIssue ctx cell]
          .ok ({ cell with attrs := .obj (setField attrsFields "route" (.obj rf2)) },
            issues)
        | _ => .error (.typeError "Path must be a string")
      | some .null =>
        .error (.typeError "Cannot read properties of null (reading path)")
      | some (.arr elems) =>
        let rf1 := defaultPath cell.info []
        match (lookupField rf1 "path").getD .undef with
        | .str _ =>
          .ok ({ cell with attrs := .obj (setField attrsFields "route" (.arr elems)) },
            [mkRouteIssue ctx cell])
        | _ => .error (.typeError "Path must be a string")
      | _ => .ok (cell, [])
    | _ => .ok (cell, [])
  else .ok (cell, [])

/-- The issues registered by one enrichment call; a call that throws
registers none. -/
def enrichIssues (cell : CodeCell) (ctx : EnrichContext) : List Issue :=
  match enrichRoute cell ctx with
  | .ok r => r.2
  | .error _ => []

/-! ## Breadcrumb composition

The forest the breadcrumb loop iterates is built by an external collaborator
whose code is not part of the repository sources. -/

/-- Modelled from the spec: the externally built forest of the path-tree
collaborator, a collection of rooted trees keyed by normalized path, each
node optionally holding the originating payload records that collapsed onto
it. -/
inductive PathTreeNode (P : Type) where
  | node (path : String) (payloads : List P) (children : List (PathTreeNode P))

def PathTreeNode.path {P : Type} : PathTreeNode P → String
  | .node p _ _ => p

def PathTreeNode.payloads {P : Type} : PathTreeNode P → List P
  | .node _ ps _ => ps

def PathTreeNode.children {P : Type} : PathTreeNode P → List (PathTreeNode P)
  | .node _ _ cs => cs

/-- Modelled from the spec: a forest exposes its root node sequence. -/
structure PathForest (P : Type) where
  roots : List (PathTreeNode P)

mutual
/-- The node sequence of a subtree, in preorder; the source iterates the
path-keyed node map of the forest, whose exact order the breadcrumb loop is
insensitive to. -/
def allNodesOf {P : Type} : PathTreeNode P → List (PathTreeNode P)
  | .node p ps cs => .node p ps cs :: allNodesList cs
def allNodesList {P : Type} : List (PathTreeNode P) → List (PathTreeNode P)
  | [] => []
  | n :: ns => allNodesOf n ++ allNodesList ns
end

mutual
/-- Modelled from the spec: the ancestor lookup of the external navigation
primitive, root-first and excluding the node of the payload itself, skipping
synthesized pass-through nodes, which hold no payload of their own; each real
ancestor node contributes its first payload.  The accumulator carries the
chain from the root, most recent first. -/
def ancestorsIn {P : Type} [DecidableEq P] (p : P) (acc : List P) :
    PathTreeNode P → Option (List P)
  | .node _ ps cs =>
    if p ∈ ps then some acc.reverse
    else
      ancestorsInList p
        (match ps with
         | [] => acc
         | q :: _ => q :: acc) cs
def ancestorsInList {P : Type} [DecidableEq P] (p : P) (acc : List P) :
    List (PathTreeNode P) → Option (List P)
  | [] => none
  | n :: ns =>
    match ancestorsIn p acc n with
    | some r => some r
    | none => ancestorsInList p acc ns
end

/-- Modelled from the spec: the ancestor sequence of a payload of the
forest. -/
def ancestorsOf {P : Type} [DecidableEq P] (f : PathForest P) (p : P) :
    List P :=
  (ancestorsInList p [] f.roots).getD []

/-- The breadcrumb loop of the populate method: for every payload of every
node, the crumbs map entry at the payload path is assigned the ancestor
sequence of the payload. -/
def composeBreadcrumbs {P : Type} (pathOf : P → String) (anc : P → List P)
    (nodes : List (PathTreeNode P)) : List (String × List P) :=
  nodes.foldl
    (fun m n => n.payloads.foldl
      (fun m q => setField m (pathOf q) (anc q)) m) []

/-- The crumbs map the populate method computes for a forest. -/
def breadcrumbsOf {P : Type} [DecidableEq P] (pathOf : P → String)
    (f : PathForest P) : List (String × List P) :=
  composeBreadcrumbs pathOf (ancestorsOf f) (allNodesList f.roots)

/-! ## Association list lemmas -/

theorem lookupField_nil {α : Type} (key : String) :
    lookupField ([] : List (String × α)) key = none := rfl

theorem lookupField_cons {α : Type} (k0 : String) (v0 : α)
    (rest : List (String × α)) (key : String) :
    lookupField ((k0, v0) :: rest) key
      = if k0 = key then some v0 else lookupField rest key := rfl

theorem lookup_map_replace {α : Type} (k : String) (v : α) :
    ∀ fs : List (String × α), fs.any (fun kv => kv.1 = k) = true →
      lookupField (fs.map (fun kv => if kv.1 = k then (k, v) else kv)) k = some v
  | [], h => by simp at h
  | (k0, v0) :: rest, h => by
    by_cases hk : k0 = k
    · simp [lookupField_cons, hk]
    · simp only [List.any_cons, hk] at h
      simp only [List.map_cons, if_neg (by simpa using hk : ¬ ((k0, v0).1 = k)),
        lookupField_cons, if_neg hk]
      exact lookup_map_replace k v rest (by simpa using h)

theorem lookup_map_replace_ne {α : Type} (k k' : String) (v : α) (h : k' ≠ k) :
    ∀ fs : List (String × α),
      lookupField (fs.map (fun kv => if kv.1 = k then (k, v) else kv)) k'
        = lookupField fs k'
  | [] => rfl
  | (k0, v0) :: rest => by
    by_cases hk : k0 = k
    · subst hk
      have hne : ¬ (k0 = k') := fun h' => h h'.symm
      simp only [List.map_cons, if_true]
      rw [lookupField_cons, lookupField_cons, if_neg hne, if_neg hne]
      exact lookup_map_replace_ne k0 k' v h rest
    · simp only [List.map_cons]
      rw [show (if (k0, v0).1 = k then (k, v) else (k0, v0)) = (k0, v0) by simp [hk]]
      rw [lookupField_cons, lookupField_cons]
      by_cases hk' : k0 = k'
      · simp [hk']
      · simp only [if_neg hk']
        exact lookup_map_replace_ne k k' v h rest

theorem lookup_append_tail {α : Type} (k : String) (v : α) :
    ∀ fs : List (String × α), ¬ (fs.any (fun kv => kv.1 = k) = true) →
      lookupField (fs ++ [(k, v)]) k = some v
  | [], _ => by simp [lookupField_cons]
  | (k0, v0) :: rest, h => by
    simp only [List.any_cons, Bool.or_eq_true, not_or] at h
    simp only [List.cons_append, lookupField_cons,
      if_neg (by simpa using h.1 : ¬ (k0 = k))]
    exact lookup_append_tail k v rest (by simp [h.2])

theorem lookup_append_ne {α : Type} (k k' : String) (v : α) (h : k' ≠ k) :
    ∀ fs : List (String × α),
      lookupField (fs ++ [(k, v)]) k' = lookupField fs k'
  | [] => by
    have hne : ¬ (k = k') := fun h' => h h'.symm
    simp only [List.nil_append, lookupField_cons, if_neg hne, lookupField_nil]
  | (k0, v0) :: rest => by
    simp only [List.cons_append, lookupField_cons]
    by_cases hk' : k0 = k'
    · simp [hk']
    · simp only [if_neg hk']
      exact lookup_append_ne k k' v h rest

theorem lookupField_setField_self {α : Type} (fs : List (String × α)) (k : String)
    (v : α) : lookupField (setField fs k v) k = some v := by
  by_cases hpres : fs.any (fun kv => kv.1 = k) = true
  · simp only [setField, hpres, if_pos]
    exact lookup_map_replace k v fs hpres
  · simp only [setField, hpres, if_neg]
    exact lookup_append_tail k v fs hpres

theorem lookupField_setField_ne {α : Type} (fs : List (String × α)) (k k' : String)
    (v : α) (h : k' ≠ k) : lookupField (setField fs k v) k' = lookupField fs k' := by
  by_cases hpres : fs.any (fun kv => kv.1 = k) = true
  · simp only [setField, hpres, if_pos]
    exact lookup_map_replace_ne k k' v h fs
  · simp only [setField, hpres, if_neg]
    exact lookup_append_ne k k' v h fs

theorem lookup_isSome_eq_any {α : Type} (fs : List (String × α)) (k : String) :
    (lookupField fs k).isSome = fs.any (fun kv => kv.1 = k) := by
  induction fs with
  | nil => simp [lookupField]
  | cons kv rest ih =>
    by_cases hk : kv.1 = k <;> simp [lookupField, hk, ih]

theorem any_key_setField_self {α : Type} (fs : List (String × α)) (k : String)
    (v : α) : (setField fs k v).any (fun kv => kv.1 = k) = true := by
  rw [← lookup_isSome_eq_any, lookupField_setField_self]
  rfl

theorem any_key_setField_of {α : Type} (fs : List (String × α)) (k k' : String)
    (v' : α) (h : fs.any (fun kv => kv.1 = k) = true) :
    (setField fs k' v').any (fun kv => kv.1 = k) = true := by
  by_cases hkk : k = k'
  · subst hkk; exact any_key_setField_self fs k v'
  · rw [← lookup_isSome_eq_any, lookupField_setField_ne fs k' k v' hkk,
      lookup_isSome_eq_any, h]

theorem map_eq_self_of {α : Type} (l : List α) (f : α → α)
    (h : ∀ x ∈ l, f x = x) : l.map f = l := by
  conv_rhs => rw [← List.map_id l]
  exact List.map_congr_left h

theorem setField_setField_same {α : Type} (fs : List (String × α)) (k : String)
    (v v' : α) : setField (setField fs k v) k v' = setField fs k v' := by
  by_cases hpres : fs.any (fun kv => kv.1 = k) = true
  · have h1 : setField fs k v = fs.map (fun kv => if kv.1 = k then (k, v) else kv) := by
      simp [setField, hpres]
    have h1' : setField fs k v' = fs.map (fun kv => if kv.1 = k then (k, v') else kv) := by
      simp [setField, hpres]
    have hpres2 : (setField fs k v).any (fun kv => kv.1 = k) = true :=
      any_key_setField_self fs k v
    rw [h1] at hpres2
    rw [h1, setField, if_pos hpres2, List.map_map, h1']
    refine List.map_congr_left (fun kv _ => ?_)
    by_cases hk : kv.1 = k <;> simp [Function.comp, hk]
  · have h1 : setField fs k v = fs ++ [(k, v)] := by
      simp only [setField, hpres]; simp
    have hpres2 : (fs ++ [(k, v)]).any (fun kv => kv.1 = k) = true := by simp
    have hnone : ∀ kv ∈ fs, ¬ (kv.1 = k) := by
      intro kv hkv hk
      exact hpres (List.any_eq_true.mpr ⟨kv, hkv, by simp [hk]⟩)
    rw [h1, setField, if_pos hpres2, List.map_append]
    have h2 : fs.map (fun kv => if kv.1 = k then (k, v') else kv) = fs := by
      refine map_eq_self_of _ _ (fun kv hkv => ?_)
      simp [hnone kv hkv]
    rw [h2]
    simp only [List.map_cons, if_pos rfl, List.map_nil]
    simp [setField, hpres]

theorem mem_setField_key_eq {α : Type} (fs : List (String × α)) (k : String)
    (v : α) : ∀ kv ∈ setField fs k v, kv.1 = k → kv = (k, v) := by
  intro kv hkv hk
  by_cases hpres : fs.any (fun kv => kv.1 = k) = true
  · simp only [setField, hpres, if_pos] at hkv
    rcases List.mem_map.mp hkv with ⟨a, _, rfl⟩
    by_cases ha : a.1 = k
    · simp [ha]
    · simp only [if_neg ha] at hk ⊢
      exact absurd hk ha
  · simp only [setField, hpres, if_neg] at hkv
    rcases List.mem_append.mp hkv with h | h
    · exact absurd (List.any_eq_true.mpr ⟨kv, h, by simp [hk]⟩) hpres
    · simpa using h

theorem mem_setField_of_ne {α : Type} (fs : List (String × α)) (k k' : String)
    (v' : α) (hne : k ≠ k') :
    ∀ kv ∈ setField fs k' v', kv.1 = k → kv ∈ fs := by
  intro kv hkv hk
  by_cases hpres : fs.any (fun kv => kv.1 = k') = true
  · simp only [setField, hpres, if_pos] at hkv
    rcases List.mem_map.mp hkv with ⟨a, ha, rfl⟩
    by_cases hak : a.1 = k'
    · simp only [if_pos hak] at hk
      exact absurd hk.symm hne
    · simpa [if_neg hak] using ha
  · simp only [setField, hpres, if_neg] at hkv
    rcases List.mem_append.mp hkv with h | h
    · exact h
    · simp only [List.mem_singleton] at h
      subst h
      exact absurd hk.symm hne

theorem setField_absorb {α : Type} (fs : List (String × α)) (k : String) (v : α)
    (hpres : fs.any (fun kv => kv.1 = k) = true)
    (hocc : ∀ kv ∈ fs, kv.1 = k → kv = (k, v)) : setField fs k v = fs := by
  simp only [setField, hpres, if_pos]
  refine map_eq_self_of _ _ (fun kv hkv => ?_)
  by_cases hk : kv.1 = k
  · rw [if_pos hk, ← hocc kv hkv hk]
  · rw [if_neg hk]

/-! ## Split and extension-chain lemmas -/

theorem splitCh_ne_nil (c : Char) : ∀ l : List Char, splitCh c l ≠ []
  | [] => by simp [splitCh]
  | x :: xs => by
    have h := splitCh_ne_nil c xs
    rcases hr : splitCh c xs with _ | ⟨hd, tl⟩
    · exact absurd hr h
    · by_cases hx : x = c <;> simp [splitCh, hr, hx]

theorem not_mem_of_mem_splitCh (c : Char) :
    ∀ l : List Char, ∀ part ∈ splitCh c l, c ∉ part
  | [], part, hp => by
    simp only [splitCh, List.mem_singleton] at hp
    subst hp; simp
  | x :: xs, part, hp => by
    have ih := not_mem_of_mem_splitCh c xs
    rcases hr : splitCh c xs with _ | ⟨hd, tl⟩
    · exact absurd hr (splitCh_ne_nil c xs)
    · by_cases hx : x = c
      · simp only [splitCh, hr, if_pos hx, List.mem_cons] at hp
        rcases hp with hp | hp | hp
        · subst hp; simp
        · exact ih part (hr ▸ (hp ▸ List.mem_cons_self hd tl))
        · exact ih part (hr ▸ List.mem_cons_of_mem hd hp)
      · simp only [splitCh, hr, if_neg hx, List.mem_cons] at hp
        rcases hp with hp | hp
        · subst hp
          intro hc
          rw [List.mem_cons] at hc
          rcases hc with hc | hc
          · exact hx hc.symm
          · exact ih hd (hr ▸ List.mem_cons_self hd tl) hc
        · exact ih part (hr ▸ List.mem_cons_of_mem hd hp)

theorem splitCh_eq_single (c : Char) :
    ∀ l : List Char, c ∉ l → splitCh c l = [l]
  | [], _ => rfl
  | x :: xs, h => by
    have hx : ¬ (x = c) := fun hc => h (hc ▸ List.mem_cons_self x xs)
    have ih : splitCh c xs = [xs] :=
      splitCh_eq_single c xs (fun hc => h (List.mem_cons_of_mem x hc))
    simp [splitCh, ih, hx]

theorem mapIdx_const_id {α : Type} : ∀ l : List α, l.mapIdx (fun _ e => e) = l
  | [] => rfl
  | x :: xs => by
    rw [List.mapIdx_cons]
    exact congrArg (x :: ·) (mapIdx_const_id xs)

theorem mapIdx_dot_lt (n : ℕ) (l : List String) :
    l.mapIdx (fun i e => if i < n then "." ++ e else e)
      = (l.take n).map (fun e => "." ++ e) ++ l.drop n := by
  induction l generalizing n with
  | nil => simp
  | cons a t ih =>
    cases n with
    | zero =>
      simp only [List.mapIdx_cons, Nat.not_lt_zero, if_false, List.take_zero,
        List.map_nil, List.nil_append, List.drop_zero]
      exact congrArg (a :: ·) (mapIdx_const_id t)
    | succ m =>
      simp only [List.mapIdx_cons, Nat.zero_lt_succ, if_true, List.take_succ_cons,
        List.map_cons, List.cons_append, List.drop_succ_cons]
      refine congrArg (_ :: ·) ?_
      have : (fun i (e : String) => if i + 1 < m + 1 then "." ++ e else e)
          = fun i e => if i < m then "." ++ e else e := by
        funext i e
        simp [Nat.succ_lt_succ_iff]
      rw [this, ih m]

theorem dotPrefixAllButLast_eq (l : List String) :
    dotPrefixAllButLast l
      = l.dropLast.map (fun e => "." ++ e) ++ l.drop (l.length - 1) := by
  unfold dotPrefixAllButLast
  rw [mapIdx_dot_lt, List.dropLast_eq_take]

theorem length_dotPrefixAllButLast (l : List String) :
    (dotPrefixAllButLast l).length = l.length := by
  rw [dotPrefixAllButLast_eq]
  rcases List.eq_nil_or_concat l with rfl | ⟨l', a, rfl⟩
  · rfl
  · simp

theorem getLastD_dotPrefixAllButLast (l : List String) :
    (dotPrefixAllButLast l).getLastD "" = l.getLastD "" := by
  rw [dotPrefixAllButLast_eq]
  rcases List.eq_nil_or_concat l with rfl | ⟨l', a, rfl⟩
  · rfl
  · rw [List.concat_eq_append, List.dropLast_concat]
    have hlen : (l' ++ [a]).length - 1 = l'.length := by simp
    rw [hlen, List.drop_left, List.getLastD_concat, List.getLastD_concat]

/-! ## Derived-field lemmas -/

theorem deriveFields_def (rf : List (String × JVal)) (p : String) :
    deriveFields rf p
      = setField (setField (setField (setField (setField rf
          "pathBasename" (.str (pathExtensions p).basename))
          "pathBasenameNoExtn" (.str ((splitParts
            (pathExtensions p).basename).headD "")))
          "pathDirname" (.str (dirname p)))
          "pathExtnTerminal" (.str (pathExtensions p).terminal))
          "pathExtns" (.arr ((pathExtensions p).extensions.map JVal.str)) := rfl

theorem lookup_deriveFields_path (rf : List (String × JVal)) (p : String) :
    lookupField (deriveFields rf p) "path" = lookupField rf "path" := by
  rw [deriveFields_def,
    lookupField_setField_ne _ _ _ _ (by decide),
    lookupField_setField_ne _ _ _ _ (by decide),
    lookupField_setField_ne _ _ _ _ (by decide),
    lookupField_setField_ne _ _ _ _ (by decide),
    lookupField_setField_ne _ _ _ _ (by decide)]

theorem lookup_deriveFields_caption (rf : List (String × JVal)) (p : String) :
    lookupField (deriveFields rf p) "caption" = lookupField rf "caption" := by
  rw [deriveFields_def,
    lookupField_setField_ne _ _ _ _ (by decide),
    lookupField_setField_ne _ _ _ _ (by decide),
    lookupField_setField_ne _ _ _ _ (by decide),
    lookupField_setField_ne _ _ _ _ (by decide),
    lookupField_setField_ne _ _ _ _ (by decide)]

theorem lookup_deriveFields_basename (rf : List (String × JVal)) (p : String) :
    lookupField (deriveFields rf p) "pathBasename"
      = some (.str (pathExtensions p).basename) := by
  rw [deriveFields_def,
    lookupField_setField_ne _ _ _ _ (by decide),
    lookupField_setField_ne _ _ _ _ (by decide),
    lookupField_setField_ne _ _ _ _ (by decide),
    lookupField_setField_ne _ _ _ _ (by decide),
    lookupField_setField_self]

theorem lookup_deriveFields_basenameNoExtn (rf : List (String × JVal)) (p : String) :
    lookupField (deriveFields rf p) "pathBasenameNoExtn"
      = some (.str ((splitParts (pathExtensions p).basename).headD "")) := by
  rw [deriveFields_def,
    lookupField_setField_ne _ _ _ _ (by decide),
    lookupField_setField_ne _ _ _ _ (by decide),
    lookupField_setField_ne _ _ _ _ (by decide),
    lookupField_setField_self]

theorem lookup_deriveFields_dirname (rf : List (String × JVal)) (p : String) :
    lookupField (deriveFields rf p) "pathDirname" = some (.str (dirname p)) := by
  rw [deriveFields_def,
    lookupField_setField_ne _ _ _ _ (by decide),
    lookupField_setField_ne _ _ _ _ (by decide),
    lookupField_setField_self]

theorem lookup_deriveFields_terminal (rf : List (String × JVal)) (p : String) :
    lookupField (deriveFields rf p) "pathExtnTerminal"
      = some (.str (pathExtensions p).terminal) := by
  rw [deriveFields_def,
    lookupField_setField_ne _ _ _ _ (by decide),
    lookupField_setField_self]

theorem lookup_deriveFields_extns (rf : List (String × JVal)) (p : String) :
    lookupField (deriveFields rf p) "pathExtns"
      = some (.arr ((pathExtensions p).extensions.map JVal.str)) := by
  rw [deriveFields_def, lookupField_setField_self]

theorem deriveFields_idem (rf : List (String × JVal)) (p : String) :
    deriveFields (deriveFields rf p) p = deriveFields rf p := by
  have hocc : ∀ (k : String) (v : JVal),
      lookupField (deriveFields rf p) k = some v →
      (∀ kv ∈ deriveFields rf p, kv.1 = k → kv = (k, v)) →
      setField (deriveFields rf p) k v = deriveFields rf p := by
    intro k v hl ho
    refine setField_absorb _ _ _ ?_ ho
    rw [← lookup_isSome_eq_any, hl]; rfl
  have h1 : setField (deriveFields rf p) "pathBasename"
      (.str (pathExtensions p).basename) = deriveFields rf p := by
    refine hocc _ _ (lookup_deriveFields_basename rf p) ?_
    rw [deriveFields_def]
    intro kv h hk
    have h := mem_setField_of_ne _ _ _ _ (by decide) kv h hk
    have h := mem_setField_of_ne _ _ _ _ (by decide) kv h hk
    have h := mem_setField_of_ne _ _ _ _ (by decide) kv h hk
    have h := mem_setField_of_ne _ _ _ _ (by decide) kv h hk
    exact mem_setField_key_eq _ _ _ kv h hk
  have h2 : setField (deriveFields rf p) "pathBasenameNoExtn"
      (.str ((splitParts (pathExtensions p).basename).headD "")) = deriveFields rf p := by
    refine hocc _ _ (lookup_deriveFields_basenameNoExtn rf p) ?_
    rw [deriveFields_def]
    intro kv h hk
    have h := mem_setField_of_ne _ _ _ _ (by decide) kv h hk
    have h := mem_setField_of_ne _ _ _ _ (by decide) kv h hk
    have h := mem_setField_of_ne _ _ _ _ (by decide) kv h hk
    exact mem_setField_key_eq _ _ _ kv h hk
  have h3 : setField (deriveFields rf p) "pathDirname"
      (.str (dirname p)) = deriveFields rf p := by
    refine hocc _ _ (lookup_deriveFields_dirname rf p) ?_
    rw [deriveFields_def]
    intro kv h hk
    have h := mem_setField_of_ne _ _ _ _ (by decide) kv h hk
    have h := mem_setField_of_ne _ _ _ _ (by decide) kv h hk
    exact mem_setField_key_eq _ _ _ kv h hk
  have h4 : setField (deriveFields rf p) "pathExtnTerminal"
      (.str (pathExtensions p).terminal) = deriveFields rf p := by
    refine hocc _ _ (lookup_deriveFields_terminal rf p) ?_
    rw [deriveFields_def]
    intro kv h hk
    have h := mem_setField_of_ne _ _ _ _ (by decide) kv h hk
    exact mem_setField_key_eq _ _ _ kv h hk
  have h5 : setField (deriveFields rf p) "pathExtns"
      (.arr ((pathExtensions p).extensions.map JVal.str)) = deriveFields rf p := by
    refine hocc _ _ (lookup_deriveFields_extns rf p) ?_
    rw [deriveFields_def]
    intro kv h hk
    exact mem_setField_key_eq _ _ _ kv h hk
  conv_lhs => rw [deriveFields_def, h1, h2, h3, h4, h5]

/-! ## Defaulting and enrichment lemmas -/

theorem defaultPath_of_truthy_path (info : Option String)
    (rf : List (String × JVal)) (p : String)
    (hp : lookupField rf "path" = some (.str p)) (hne : p ≠ "") :
    defaultPath info rf = rf := by
  unfold defaultPath
  rw [hp]
  simp [jsFalsy, hne]

theorem defaultPath_of_empty_path (info : Option String)
    (rf : List (String × JVal)) (s : String)
    (hpath : lookupField rf "path" = none ∨ lookupField rf "path" = some (.str ""))
    (hinfo : info = some s) (hs : s ≠ "") :
    defaultPath info rf = setField rf "path" (.str s) := by
  unfold defaultPath
  subst hinfo
  rcases hpath with hp | hp <;>
    simp [hp, jsFalsy, infoTruthy, hs]

/-- Symbolic execution of the enrichment mutator on a carrier whose route
attribute is a plain object and whose path, after the info default, is a
string. -/
theorem enrichRoute_obj (cell : CodeCell) (ctx : EnrichContext)
    (afs rf0 : List (String × JVal)) (p : String)
    (h1 : cell.attrs = .obj afs)
    (h2 : lookupField afs "route" = some (.obj rf0))
    (h3 : (lookupField (defaultPath cell.info rf0) "path").getD .undef = .str p) :
    enrichRoute cell ctx = .ok
      ({ cell with attrs := .obj (setField afs "route"
          (.obj (deriveFields (defaultPath cell.info rf0) p))) },
        if schemaAccepts (deriveFields (defaultPath cell.info rf0) p) then []
        else [mkRouteIssue ctx cell]) := by
  have hsupp : isRouteSupplier cell.attrs = true := by
    rw [h1]
    simp [isRouteSupplier, h2, jsTypeofIsObject]
  obtain ⟨a, i, s, e⟩ := cell
  simp only at h1 h3
  subst h1
  simp only [enrichRoute, hsupp, if_pos, h2, h3]

/-! ## Breadcrumb lemmas -/

theorem composeBreadcrumbs_flatten {P : Type} (pathOf : P → String)
    (anc : P → List P) (nodes : List (PathTreeNode P)) :
    composeBreadcrumbs pathOf anc nodes
      = (nodes.flatMap PathTreeNode.payloads).foldl
          (fun m q => setField m (pathOf q) (anc q)) [] := by
  suffices h : ∀ (ns : List (PathTreeNode P)) (m : List (String × List P)),
      ns.foldl (fun m n => n.payloads.foldl
        (fun m q => setField m (pathOf q) (anc q)) m) m
        = (ns.flatMap PathTreeNode.payloads).foldl
            (fun m q => setField m (pathOf q) (anc q)) m by
    exact h nodes []
  intro ns
  induction ns with
  | nil => intro m; rfl
  | cons n rest ih =>
    intro m
    simp only [List.foldl_cons, List.flatMap_cons, List.foldl_append]
    exact ih _

theorem lookup_foldl_set_of_not_mem {P : Type} (pathOf : P → String)
    (anc : P → List P) (key : String) :
    ∀ (l : List P) (m : List (String × List P)), (∀ q ∈ l, pathOf q ≠ key) →
      lookupField (l.foldl (fun m q => setField m (pathOf q) (anc q)) m) key
        = lookupField m key
  | [], m, _ => rfl
  | q :: t, m, h => by
    simp only [List.foldl_cons]
    rw [lookup_foldl_set_of_not_mem pathOf anc key t _
      (fun r hr => h r (List.mem_cons_of_mem q hr))]
    exact lookupField_setField_ne _ _ _ _ (fun he => h q (List.mem_cons_self q t) he.symm)

theorem lookup_foldl_set_of_mem {P : Type} (pathOf : P → String)
    (anc : P → List P) :
    ∀ (l : List P) (m : List (String × List P)) (p : P), p ∈ l →
      (l.map pathOf).Nodup →
      lookupField (l.foldl (fun m q => setField m (pathOf q) (anc q)) m) (pathOf p)
        = some (anc p)
  | [], _, p, hp, _ => absurd hp (List.not_mem_nil p)
  | q :: t, m, p, hp, hnd => by
    simp only [List.map_cons, List.nodup_cons] at hnd
    by_cases hpt : p ∈ t
    · simp only [List.foldl_cons]
      exact lookup_foldl_set_of_mem pathOf anc t _ p hpt hnd.2
    · have hpq : p = q := by
        rcases List.mem_cons.mp hp with h | h
        · exact h
        · exact absurd h hpt
      subst hpq
      simp only [List.foldl_cons]
      rw [lookup_foldl_set_of_not_mem pathOf anc (pathOf p) t _
        (fun r hr he => hnd.1 (he ▸ List.mem_map_of_mem pathOf hr))]
      exact lookupField_setField_self _ _ _

theorem keys_map_replace {α : Type} (fs : List (String × α)) (k : String) (v : α) :
    (fs.map (fun kv => if kv.1 = k then (k, v) else kv)).map Prod.fst
      = fs.map Prod.fst := by
  rw [List.map_map]
  refine List.map_congr_left (fun kv _ => ?_)
  by_cases hk : kv.1 = k <;> simp [Function.comp, hk]

theorem keys_setField_nodup {α : Type} (fs : List (String × α)) (k : String)
    (v : α) (h : (fs.map Prod.fst).Nodup) :
    ((setField fs k v).map Prod.fst).Nodup := by
  by_cases hpres : fs.any (fun kv => kv.1 = k) = true
  · simp only [setField, hpres, if_pos]
    rw [keys_map_replace]
    exact h
  · simp only [setField, hpres, if_neg, List.map_append]
    have hk : k ∉ fs.map Prod.fst := by
      intro hmem
      rcases List.mem_map.mp hmem with ⟨kv, hkv, hfst⟩
      exact hpres (List.any_eq_true.mpr ⟨kv, hkv, by simp [hfst]⟩)
    simp [List.nodup_append, h, hk]

theorem keys_foldl_set_nodup {P : Type} (pathOf : P → String) (anc : P → List P) :
    ∀ (l : List P) (m : List (String × List P)), (m.map Prod.fst).Nodup →
      ((l.foldl (fun m q => setField m (pathOf q) (anc q)) m).map Prod.fst).Nodup
  | [], _, h => h
  | q :: t, m, h => by
    simp only [List.foldl_cons]
    exact keys_foldl_set_nodup pathOf anc t _ (keys_setField_nodup _ _ _ h)

theorem self_mem_allNodesOf {P : Type} (n : PathTreeNode P) : n ∈ allNodesOf n := by
  cases n with
  | node q ps cs =>
    rw [allNodesOf]
    exact List.mem_cons_self _ _

theorem subset_allNodesList {P : Type} :
    ∀ (ns : List (PathTreeNode P)) (n : PathTreeNode P), n ∈ ns →
      ∀ m ∈ allNodesOf n, m ∈ allNodesList ns
  | [], n, hn => absurd hn (List.not_mem_nil n)
  | r :: rest, n, hn => by
    intro m hm
    rw [allNodesList, List.mem_append]
    rcases List.mem_cons.mp hn with h | h
    · exact Or.inl (h ▸ hm)
    · exact Or.inr (subset_allNodesList rest n h m hm)

mutual
theorem ancestorsIn_eq_none {P : Type} [DecidableEq P] (p : P) :
    ∀ (acc : List P) (n : PathTreeNode P),
      p ∉ (allNodesOf n).flatMap PathTreeNode.payloads →
      ancestorsIn p acc n = none
  | acc, .node q ps cs, h => by
    rw [allNodesOf, List.flatMap_cons, List.mem_append] at h
    have hps : p ∉ ps := fun hmem => h (Or.inl hmem)
    have hrest : p ∉ (allNodesList cs).flatMap PathTreeNode.payloads :=
      fun hmem => h (Or.inr hmem)
    rw [ancestorsIn.eq_def]
    simp only [if_neg hps]
    exact ancestorsInList_eq_none p _ cs hrest
theorem ancestorsInList_eq_none {P : Type} [DecidableEq P] (p : P) :
    ∀ (acc : List P) (ns : List (PathTreeNode P)),
      p ∉ (allNodesList ns).flatMap PathTreeNode.payloads →
      ancestorsInList p acc ns = none
  | _, [], _ => rfl
  | acc, n :: rest, h => by
    rw [allNodesList, List.flatMap_append, List.mem_append] at h
    have h1 : p ∉ (allNodesOf n).flatMap PathTreeNode.payloads :=
      fun hmem => h (Or.inl hmem)
    have h2 : p ∉ (allNodesList rest).flatMap PathTreeNode.payloads :=
      fun hmem => h (Or.inr hmem)
    rw [ancestorsInList, ancestorsIn_eq_none p acc n h1]
    exact ancestorsInList_eq_none p acc rest h2
end

theorem ancestorsInList_root {P : Type} [DecidableEq P] (p : P) :
    ∀ roots : List (PathTreeNode P),
      ((allNodesList roots).flatMap PathTreeNode.payloads).Nodup →
      ∀ r ∈ roots, p ∈ r.payloads →
      ancestorsInList p [] roots = some []
  | [], _, r, hr, _ => absurd hr (List.not_mem_nil r)
  | n :: rest, hnd, r, hr, hp => by
    rw [allNodesList, List.flatMap_append] at hnd
    rcases List.mem_cons.mp hr with h | h
    · subst h
      have hin : ancestorsIn p [] r = some [] := by
        cases r with
        | node q ps cs =>
          simp only [PathTreeNode.payloads] at hp
          rw [ancestorsIn.eq_def]
          simp only [if_pos hp, List.reverse_nil]
      rw [ancestorsInList, hin]
    · have hdisj := (List.nodup_append.mp hnd).2.2
      have hpright : p ∈ (allNodesList rest).flatMap PathTreeNode.payloads := by
        refine List.mem_flatMap.mpr ⟨r, ?_, hp⟩
        exact subset_allNodesList rest r h r (self_mem_allNodesOf r)
      have hpleft : p ∉ (allNodesOf n).flatMap PathTreeNode.payloads := by
        intro hmem
        exact hdisj hmem hpright
      rw [ancestorsInList, ancestorsIn_eq_none p [] n hpleft]
      exact ancestorsInList_root p rest (List.nodup_append.mp hnd).2.1 r h hp

/-! ## Claim theorems -/

/-- C7: a carrier that lacks the route capability (its attributes do not
satisfy the duck-typed object-valued-route check) is untouched by the
enrichment call: the carrier is returned unchanged and no issue is
registered. -/
theorem enrichRoute_noop_without_capability (cell : CodeCell) (ctx : EnrichContext)
    (h : isRouteSupplier cell.attrs = false) :
    enrichRoute cell ctx = .ok (cell, []) := by
  simp [enrichRoute, h]

/-- Witness for C7 at a carrier whose attributes are a string. -/
theorem enrichRoute_noop_without_capability_witness :
    isRouteSupplier (JVal.str "x") = false ∧
    enrichRoute ⟨JVal.str "x", none, 0, 0⟩ ⟨"p"⟩ = .ok (⟨JVal.str "x", none, 0, 0⟩, []) :=
  ⟨rfl, enrichRoute_noop_without_capability ⟨JVal.str "x", none, 0, 0⟩ ⟨"p"⟩ rfl⟩

/-- C10: a carrier whose attributes are an object carrying a route property
equal to null passes the route capability check, because typeof null is
"object", so enrichment proceeds past the guard and the dereference of the
null route throws; no guard distinguishes a null route from a genuine route
object. -/
theorem isRouteSupplier_null_route_pass (cell : CodeCell) (ctx : EnrichContext)
    (afs : List (String × JVal))
    (h1 : cell.attrs = .obj afs)
    (h2 : lookupField afs "route" = some .null) :
    isRouteSupplier cell.attrs = true ∧
    enrichRoute cell ctx
      = .error (.typeError "Cannot read properties of null (reading path)") := by
  have hsupp : isRouteSupplier cell.attrs = true := by
    rw [h1]
    simp [isRouteSupplier, h2, jsTypeofIsObject]
  refine ⟨hsupp, ?_⟩
  obtain ⟨a, i, s, e⟩ := cell
  simp only at h1
  subst h1
  simp [enrichRoute, hsupp, h2]

/-- Witness for C10 at a concrete null-route carrier. -/
theorem isRouteSupplier_null_route_pass_witness :
    isRouteSupplier (JVal.obj [("route", JVal.null)]) = true ∧
    enrichRoute ⟨.obj [("route", JVal.null)], none, 1, 2⟩ ⟨"doc"⟩
      = .error (.typeError "Cannot read properties of null (reading path)") :=
  isRouteSupplier_null_route_pass ⟨.obj [("route", JVal.null)], none, 1, 2⟩ ⟨"doc"⟩
    [("route", JVal.null)] rfl rfl

/-- C4 counterexample: the enrichment call is not exception-free for every
carrier; on a carrier whose route attribute is null the call throws a
TypeError instead of returning a discriminated result. -/
theorem enrichRoute_raises_cex :
    enrichRoute ⟨.obj [("route", JVal.null)], none, 1, 2⟩ ⟨"doc"⟩
      = .error (.typeError "Cannot read properties of null (reading path)") := rfl

/-- C4 amended: the enrichment call returns normally, recovering every
validation failure into a reported issue, provided the route attribute is a
genuine non-null object and the route path is a string once the info-string
default has been applied; validation itself never throws. -/
theorem enrichRoute_total_on_obj_route (cell : CodeCell) (ctx : EnrichContext)
    (afs rf0 : List (String × JVal)) (p : String)
    (h1 : cell.attrs = .obj afs)
    (h2 : lookupField afs "route" = some (.obj rf0))
    (h3 : (lookupField (defaultPath cell.info rf0) "path").getD .undef = .str p) :
    ∃ out, enrichRoute cell ctx = .ok out :=
  ⟨_, enrichRoute_obj cell ctx afs rf0 p h1 h2 h3⟩

/-- Witness for the amended C4 at a concrete valid carrier. -/
theorem enrichRoute_total_on_obj_route_witness :
    ∃ out, enrichRoute ⟨.obj [("route", .obj [("path", .str "a.b"),
      ("caption", .str "c")])], none, 0, 0⟩ ⟨"doc"⟩ = .ok out :=
  enrichRoute_total_on_obj_route _ ⟨"doc"⟩
    [("route", .obj [("path", .str "a.b"), ("caption", .str "c")])]
    [("path", .str "a.b"), ("caption", .str "c")] "a.b" rfl rfl rfl

/-- C1 counterexample: on a record carrying the unrecognized field foo the
single registered issue has kind fence-attrs-json5-parse, not the
route-schema-parse kind the claim states. -/
theorem route_schema_issue_kind_cex :
    (enrichIssues ⟨.obj [("route", .obj [("path", .str "x"), ("caption", .str "c"),
      ("foo", .num 1)])], none, 3, 4⟩ ⟨"prov"⟩).map Issue.kind
      = ["fence-attrs-json5-parse"] ∧
    ("fence-attrs-json5-parse" : String) ≠ "route-schema-parse" :=
  ⟨rfl, by decide⟩

/-- C1 amended: for every candidate route record that fails schema
validation during enrichment, exactly one issue is registered via the issue
sink, that issue has kind fence-attrs-json5-parse and disposition error, and
the enrichment call still returns normally. -/
theorem route_schema_failure_single_issue (cell : CodeCell) (ctx : EnrichContext)
    (afs rf0 : List (String × JVal)) (p : String)
    (h1 : cell.attrs = .obj afs)
    (h2 : lookupField afs "route" = some (.obj rf0))
    (h3 : (lookupField (defaultPath cell.info rf0) "path").getD .undef = .str p)
    (hfail : schemaAccepts (deriveFields (defaultPath cell.info rf0) p) = false) :
    enrichIssues cell ctx = [mkRouteIssue ctx cell] ∧
    (mkRouteIssue ctx cell).kind = "fence-attrs-json5-parse" ∧
    (mkRouteIssue ctx cell).disposition = "error" ∧
    ∃ out, enrichRoute cell ctx = .ok out := by
  have h := enrichRoute_obj cell ctx afs rf0 p h1 h2 h3
  rw [hfail] at h
  simp only [Bool.false_eq_true, if_false] at h
  exact ⟨by simp [enrichIssues, h], rfl, rfl, ⟨_, h⟩⟩

/-- Witness for the amended C1 at a record with unrecognized field foo and
at a record missing its required caption. -/
theorem route_schema_failure_single_issue_witness :
    enrichIssues ⟨.obj [("route", .obj [("path", .str "x"), ("caption", .str "c"),
      ("foo", .num 1)])], none, 3, 4⟩ ⟨"prov"⟩
      = [mkRouteIssue ⟨"prov"⟩ ⟨.obj [("route", .obj [("path", .str "x"),
          ("caption", .str "c"), ("foo", .num 1)])], none, 3, 4⟩] ∧
    enrichIssues ⟨.obj [("route", .obj [("path", .str "x")])], none, 5, 6⟩ ⟨"q"⟩
      = [mkRouteIssue ⟨"q"⟩ ⟨.obj [("route", .obj [("path", .str "x")])], none, 5, 6⟩] :=
  ⟨(route_schema_failure_single_issue _ ⟨"prov"⟩
      [("route", .obj [("path", .str "x"), ("caption", .str "c"), ("foo", .num 1)])]
      [("path", .str "x"), ("caption", .str "c"), ("foo", .num 1)] "x"
      rfl rfl rfl rfl).1,
   (route_schema_failure_single_issue _ ⟨"q"⟩
      [("route", .obj [("path", .str "x")])]
      [("path", .str "x")] "x" rfl rfl rfl rfl).1⟩

/-- C5 counterexample: the derived fields are not overwritten on every
carrier that passes the route capability check.  A carrier whose route is a
plain object with a numeric path passes the check, yet the path derivation
throws before any assignment, so the caller-supplied bogus pathBasename
survives on the record reachable from the carrier. -/
theorem enrichRoute_overwrites_derived_cex :
    isRouteSupplier (.obj [("route", .obj [("path", .num 5), ("caption", .str "c"),
      ("pathBasename", .str "LIE")])]) = true ∧
    enrichRoute ⟨.obj [("route", .obj [("path", .num 5), ("caption", .str "c"),
      ("pathBasename", .str "LIE")])], none, 0, 0⟩ ⟨"doc"⟩
      = .error (.typeError "Path must be a string") ∧
    lookupField [("path", JVal.num 5), ("caption", JVal.str "c"),
      ("pathBasename", JVal.str "LIE")] "pathBasename" = some (.str "LIE") :=
  ⟨rfl, rfl, rfl⟩

/-- C5 amended: for a carrier that passes the route capability check with a
plain object route whose path, after the info default, is a string — that
is, whenever the enrichment call returns rather than throwing — the five
derived fields on the resulting route record are overwritten with values
recomputed from the path alone: whatever the caller supplied in those fields
of the input record, the output values are the stated pure functions of the
path.  A capability-passing carrier with a null route or a non-string path
makes the call throw before any overwrite, leaving caller-supplied values in
place. -/
theorem enrichRoute_overwrites_derived (cell : CodeCell) (ctx : EnrichContext)
    (afs rf0 : List (String × JVal)) (p : String)
    (h1 : cell.attrs = .obj afs)
    (h2 : lookupField afs "route" = some (.obj rf0))
    (h3 : (lookupField (defaultPath cell.info rf0) "path").getD .undef = .str p) :
    ∃ issues,
      enrichRoute cell ctx = .ok
        ({ cell with attrs := .obj (setField afs "route"
            (.obj (deriveFields (defaultPath cell.info rf0) p))) }, issues) ∧
      lookupField (deriveFields (defaultPath cell.info rf0) p) "pathBasename"
        = some (.str (pathExtensions p).basename) ∧
      lookupField (deriveFields (defaultPath cell.info rf0) p) "pathBasenameNoExtn"
        = some (.str ((splitParts (pathExtensions p).basename).headD "")) ∧
      lookupField (deriveFields (defaultPath cell.info rf0) p) "pathDirname"
        = some (.str (dirname p)) ∧
      lookupField (deriveFields (defaultPath cell.info rf0) p) "pathExtnTerminal"
        = some (.str (pathExtensions p).terminal) ∧
      lookupField (deriveFields (defaultPath cell.info rf0) p) "pathExtns"
        = some (.arr ((pathExtensions p).extensions.map JVal.str)) :=
  ⟨_, enrichRoute_obj cell ctx afs rf0 p h1 h2 h3,
    lookup_deriveFields_basename _ p,
    lookup_deriveFields_basenameNoExtn _ p,
    lookup_deriveFields_dirname _ p,
    lookup_deriveFields_terminal _ p,
    lookup_deriveFields_extns _ p⟩

/-- Witness for C5 at a carrier whose record supplies bogus values for every
derived field; the enrichment result carries the recomputed values. -/
theorem enrichRoute_overwrites_derived_witness :
    ∃ issues,
      enrichRoute ⟨.obj [("route", .obj [("path", .str "/d/a.b"),
        ("caption", .str "c"), ("pathBasename", .str "LIE"),
        ("pathBasenameNoExtn", .str "LIE"), ("pathDirname", .str "LIE"),
        ("pathExtnTerminal", .str "LIE"), ("pathExtns", .str "LIE")])],
        none, 0, 0⟩ ⟨"doc"⟩ = .ok
        ({ attrs := .obj (setField [("route", .obj [("path", .str "/d/a.b"),
            ("caption", .str "c"), ("pathBasename", .str "LIE"),
            ("pathBasenameNoExtn", .str "LIE"), ("pathDirname", .str "LIE"),
            ("pathExtnTerminal", .str "LIE"), ("pathExtns", .str "LIE")])] "route"
            (.obj (deriveFields (defaultPath none [("path", .str "/d/a.b"),
              ("caption", .str "c"), ("pathBasename", .str "LIE"),
              ("pathBasenameNoExtn", .str "LIE"), ("pathDirname", .str "LIE"),
              ("pathExtnTerminal", .str "LIE"), ("pathExtns", .str "LIE")]) "/d/a.b"))),
           info := none, startLine := 0, endLine := 0 }, issues) ∧
      lookupField (deriveFields (defaultPath none [("path", .str "/d/a.b"),
        ("caption", .str "c"), ("pathBasename", .str "LIE"),
        ("pathBasenameNoExtn", .str "LIE"), ("pathDirname", .str "LIE"),
        ("pathExtnTerminal", .str "LIE"), ("pathExtns", .str "LIE")]) "/d/a.b")
        "pathBasename" = some (.str (pathExtensions "/d/a.b").basename) ∧
      lookupField (deriveFields (defaultPath none [("path", .str "/d/a.b"),
        ("caption", .str "c"), ("pathBasename", .str "LIE"),
        ("pathBasenameNoExtn", .str "LIE"), ("pathDirname", .str "LIE"),
        ("pathExtnTerminal", .str "LIE"), ("pathExtns", .str "LIE")]) "/d/a.b")
        "pathBasenameNoExtn" = some (.str ((splitParts
          (pathExtensions "/d/a.b").basename).headD "")) ∧
      lookupField (deriveFields (defaultPath none [("path", .str "/d/a.b"),
        ("caption", .str "c"), ("pathBasename", .str "LIE"),
        ("pathBasenameNoExtn", .str "LIE"), ("pathDirname", .str "LIE"),
        ("pathExtnTerminal", .str "LIE"), ("pathExtns", .str "LIE")]) "/d/a.b")
        "pathDirname" = some (.str (dirname "/d/a.b")) ∧
      lookupField (deriveFields (defaultPath none [("path", .str "/d/a.b"),
        ("caption", .str "c"), ("pathBasename", .str "LIE"),
        ("pathBasenameNoExtn", .str "LIE"), ("pathDirname", .str "LIE"),
        ("pathExtnTerminal", .str "LIE"), ("pathExtns", .str "LIE")]) "/d/a.b")
        "pathExtnTerminal" = some (.str (pathExtensions "/d/a.b").terminal) ∧
      lookupField (deriveFields (defaultPath none [("path", .str "/d/a.b"),
        ("caption", .str "c"), ("pathBasename", .str "LIE"),
        ("pathBasenameNoExtn", .str "LIE"), ("pathDirname", .str "LIE"),
        ("pathExtnTerminal", .str "LIE"), ("pathExtns", .str "LIE")]) "/d/a.b")
        "pathExtns" = some (.arr ((pathExtensions "/d/a.b").extensions.map JVal.str)) :=
  enrichRoute_overwrites_derived _ ⟨"doc"⟩ _ _ "/d/a.b" rfl rfl rfl

/-- C6: for a carrier whose route path is empty or absent and that carries a
truthy fence info string, enrichment defaults the path to that info string
before derivation, so the resulting record carries the info string as its
path and the derived stem comes from it. -/
theorem enrichRoute_defaults_path_from_info (cell : CodeCell) (ctx : EnrichContext)
    (afs rf0 : List (String × JVal)) (s : String)
    (h1 : cell.attrs = .obj afs)
    (h2 : lookupField afs "route" = some (.obj rf0))
    (hpath : lookupField rf0 "path" = none ∨ lookupField rf0 "path" = some (.str ""))
    (hinfo : cell.info = some s) (hs : s ≠ "") :
    ∃ issues,
      enrichRoute cell ctx = .ok
        ({ cell with attrs := .obj (setField afs "route"
            (.obj (deriveFields (setField rf0 "path" (.str s)) s))) }, issues) ∧
      lookupField (deriveFields (setField rf0 "path" (.str s)) s) "path"
        = some (.str s) ∧
      lookupField (deriveFields (setField rf0 "path" (.str s)) s) "pathBasenameNoExtn"
        = some (.str ((splitParts (pathExtensions s).basename).headD "")) := by
  have hdef : defaultPath cell.info rf0 = setField rf0 "path" (.str s) :=
    defaultPath_of_empty_path cell.info rf0 s hpath hinfo hs
  have h3 : (lookupField (defaultPath cell.info rf0) "path").getD .undef = .str s := by
    rw [hdef, lookupField_setField_self]
    rfl
  have h := enrichRoute_obj cell ctx afs rf0 s h1 h2 h3
  rw [hdef] at h
  refine ⟨_, h, ?_, lookup_deriveFields_basenameNoExtn _ s⟩
  rw [lookup_deriveFields_path, lookupField_setField_self]

/-- Witness for C6: the record with empty path and caption Home enriched
against a carrier with fallback info string index.sql gets path index.sql
and stem index. -/
theorem enrichRoute_defaults_path_from_info_witness :
    (∃ issues,
      enrichRoute ⟨.obj [("route", .obj [("path", .str ""), ("caption", .str "Home")])],
        some "index.sql", 1, 2⟩ ⟨"doc"⟩ = .ok
        ({ attrs := .obj (setField [("route", .obj [("path", .str ""),
            ("caption", .str "Home")])] "route"
            (.obj (deriveFields (setField [("path", .str ""), ("caption", .str "Home")]
              "path" (.str "index.sql")) "index.sql"))),
           info := some "index.sql", startLine := 1, endLine := 2 }, issues) ∧
      lookupField (deriveFields (setField [("path", .str ""), ("caption", .str "Home")]
          "path" (.str "index.sql")) "index.sql") "path" = some (.str "index.sql") ∧
      lookupField (deriveFields (setField [("path", .str ""), ("caption", .str "Home")]
          "path" (.str "index.sql")) "index.sql") "pathBasenameNoExtn"
        = some (.str ((splitParts (pathExtensions "index.sql").basename).headD ""))) ∧
    ((splitParts (pathExtensions "index.sql").basename).headD "") = "index" :=
  ⟨enrichRoute_defaults_path_from_info _ ⟨"doc"⟩
      [("route", .obj [("path", .str ""), ("caption", .str "Home")])]
      [("path", .str ""), ("caption", .str "Home")] "index.sql"
      rfl rfl (Or.inr rfl) rfl (by decide), by decide⟩

/-- C8: enrichment is idempotent on an already-enriched record with a
non-empty string path: running the mutator again on the carrier produced by
a first run returns that carrier unchanged with the same issues, so every
derived field is left unchanged. -/
theorem enrichRoute_idempotent (cell : CodeCell) (ctx : EnrichContext)
    (afs rf0 : List (String × JVal)) (p : String) (c1 : CodeCell)
    (is1 : List Issue)
    (h1 : cell.attrs = .obj afs)
    (h2 : lookupField afs "route" = some (.obj rf0))
    (hpath : lookupField rf0 "path" = some (.str p))
    (hp : p ≠ "")
    (hrun : enrichRoute cell ctx = .ok (c1, is1)) :
    enrichRoute c1 ctx = .ok (c1, is1) := by
  obtain ⟨a, i, sl, el⟩ := cell
  simp only at h1
  subst h1
  have hdef : defaultPath i rf0 = rf0 :=
    defaultPath_of_truthy_path i rf0 p hpath hp
  have h3 : (lookupField (defaultPath (CodeCell.mk (.obj afs) i sl el).info rf0)
      "path").getD .undef = .str p := by
    show (lookupField (defaultPath i rf0) "path").getD .undef = .str p
    rw [hdef, hpath]
    rfl
  have h := enrichRoute_obj ⟨.obj afs, i, sl, el⟩ ctx afs rf0 p rfl h2 h3
  dsimp only at h
  rw [hdef, hrun] at h
  simp only [Except.ok.injEq, Prod.mk.injEq] at h
  obtain ⟨hc1, his1⟩ := h
  subst hc1
  subst his1
  have h2' : lookupField (setField afs "route" (.obj (deriveFields rf0 p)))
      "route" = some (.obj (deriveFields rf0 p)) :=
    lookupField_setField_self afs "route" _
  have hpath' : lookupField (deriveFields rf0 p) "path" = some (.str p) := by
    rw [lookup_deriveFields_path, hpath]
  have hdef' : defaultPath i (deriveFields rf0 p) = deriveFields rf0 p :=
    defaultPath_of_truthy_path i _ p hpath' hp
  have h3' : (lookupField (defaultPath (CodeCell.mk (.obj (setField afs "route"
      (.obj (deriveFields rf0 p)))) i sl el).info (deriveFields rf0 p))
      "path").getD .undef = .str p := by
    show (lookupField (defaultPath i (deriveFields rf0 p))
      "path").getD .undef = .str p
    rw [hdef', hpath']
    rfl
  have h2nd := enrichRoute_obj
    ⟨.obj (setField afs "route" (.obj (deriveFields rf0 p))), i, sl, el⟩
    ctx (setField afs "route" (.obj (deriveFields rf0 p))) (deriveFields rf0 p)
    p rfl h2' h3'
  dsimp only at h2nd
  rw [hdef', deriveFields_idem, setField_setField_same] at h2nd
  exact h2nd

/-- Witness for C8: a second enrichment of an enriched valid carrier
reproduces it exactly. -/
theorem enrichRoute_idempotent_witness :
    enrichRoute ⟨.obj (setField [("route", .obj [("path", .str "a.b"),
        ("caption", .str "c")])] "route"
        (.obj (deriveFields [("path", .str "a.b"), ("caption", .str "c")] "a.b"))),
      none, 0, 0⟩ ⟨"doc"⟩
      = .ok (⟨.obj (setField [("route", .obj [("path", .str "a.b"),
          ("caption", .str "c")])] "route"
          (.obj (deriveFields [("path", .str "a.b"), ("caption", .str "c")] "a.b"))),
        none, 0, 0⟩, []) :=
  enrichRoute_idempotent
    ⟨.obj [("route", .obj [("path", .str "a.b"), ("caption", .str "c")])], none, 0, 0⟩
    ⟨"doc"⟩ [("route", .obj [("path", .str "a.b"), ("caption", .str "c")])]
    [("path", .str "a.b"), ("caption", .str "c")] "a.b" _ []
    rfl rfl rfl (by decide) rfl

/-- A dot-split part split again on dots is just itself: the parts of a
split carry no dot. -/
theorem splitParts_single {name s : String} (hmem : s ∈ splitParts name) :
    splitParts s = [s] := by
  rcases List.mem_map.mp hmem with ⟨l0, hl0, heq⟩
  have hnd : '.' ∉ l0 := not_mem_of_mem_splitCh '.' _ l0 hl0
  subst heq
  show (splitCh '.' ((⟨l0⟩ : String)).toList).map _ = _
  rw [show ((⟨l0⟩ : String)).toList = l0 from rfl, splitCh_eq_single '.' l0 hnd]
  rfl

theorem append_dot_empty_auto (b q : String) :
    b ++ "." ++ "" ++ "auto." ++ q = b ++ ".auto." ++ q := by
  rw [String.append_empty (b ++ ".")]
  rw [String.append_assoc b "." "auto."]
  rfl

/-- C2: when the basename has at least two extension candidates, the
auto-materialized path is defined and equals the original directory joined
with the synthetic filename built from the stem, a literal auto marker, and
the second-to-last raw dot-split part; with fewer than two candidates the
sentinel is returned instead of an error; concretely the derivation of
/docs/report.sql.ts auto-materializes to /docs/report.auto.sql, which lies
in the same directory and shares the stem. -/
theorem autoMaterializable_shape (p : String) :
    (2 ≤ (pathExtensions p).extensions.length →
      (pathExtensions p).autoMaterializable
        = some (join (dirname p)
            ((splitParts (basename p)).headD "" ++ ".auto." ++
              (splitParts (basename p)).getD
                ((splitParts (basename p)).length - 2) ""))) ∧
    ((pathExtensions p).extensions.length < 2 →
      (pathExtensions p).autoMaterializable = none) ∧
    (pathExtensions "/docs/report.sql.ts").autoMaterializable
      = some "/docs/report.auto.sql" ∧
    dirname "/docs/report.auto.sql" = dirname "/docs/report.sql.ts" ∧
    (splitParts (basename "/docs/report.auto.sql")).headD ""
      = (splitParts (basename "/docs/report.sql.ts")).headD "" := by
  refine ⟨?_, ?_, by decide, by decide, by decide⟩
  · intro hge
    have hlen : (pathExtensions p).extensions.length
        = (splitParts (basename p)).length - 1 := by
      rw [show (pathExtensions p).extensions
        = dotPrefixAllButLast ((splitParts (basename p)).drop 1) from rfl,
        length_dotPrefixAllButLast, List.length_drop]
    rw [hlen] at hge
    have hnlt : ¬ ((dotPrefixAllButLast
        ((splitParts (basename p)).drop 1)).length < 2) := by
      rw [length_dotPrefixAllButLast, List.length_drop]
      omega
    have hidx : (splitParts (basename p)).length - 2
        < (splitParts (basename p)).length := by omega
    have hmem : (splitParts (basename p)).getD
        ((splitParts (basename p)).length - 2) "" ∈ splitParts (basename p) := by
      rw [List.getD_eq_getElem _ _ hidx]
      exact List.getElem_mem hidx
    show (if (dotPrefixAllButLast ((splitParts (basename p)).drop 1)).length < 2
        then none
        else some (join (dirname p)
          ((splitParts (basename p)).headD "" ++ "." ++
            String.intercalate "." ((splitParts ((splitParts (basename p)).getD
              ((splitParts (basename p)).length - 2) "")).dropLast) ++
            "auto." ++ (splitParts (basename p)).getD
              ((splitParts (basename p)).length - 2) ""))) = _
    rw [if_neg hnlt, splitParts_single hmem]
    rw [show ((([(splitParts (basename p)).getD
      ((splitParts (basename p)).length - 2) ""]).dropLast) : List String) = []
      from rfl]
    rw [show String.intercalate "." [] = "" from rfl]
    rw [append_dot_empty_auto]
  · intro hlt
    have hlt' : (dotPrefixAllButLast
        ((splitParts (basename p)).drop 1)).length < 2 := hlt
    show (if (dotPrefixAllButLast ((splitParts (basename p)).drop 1)).length < 2
        then none
        else some (join (dirname p)
          ((splitParts (basename p)).headD "" ++ "." ++
            String.intercalate "." ((splitParts ((splitParts (basename p)).getD
              ((splitParts (basename p)).length - 2) "")).dropLast) ++
            "auto." ++ (splitParts (basename p)).getD
              ((splitParts (basename p)).length - 2) ""))) = none
    rw [if_pos hlt']

/-- Witness for C2 at the concrete multi-extension path and at a
single-extension path. -/
theorem autoMaterializable_shape_witness :
    (pathExtensions "/docs/report.sql.ts").autoMaterializable
      = some (join (dirname "/docs/report.sql.ts")
          ((splitParts (basename "/docs/report.sql.ts")).headD "" ++ ".auto." ++
            (splitParts (basename "/docs/report.sql.ts")).getD
              ((splitParts (basename "/docs/report.sql.ts")).length - 2) "")) ∧
    (pathExtensions "index.sql").autoMaterializable = none :=
  ⟨(autoMaterializable_shape "/docs/report.sql.ts").1 (by decide),
   (autoMaterializable_shape "index.sql").2.1 (by decide)⟩

/-- The extension-chain shape the specification describes: every dot-split
part after the stem is re-prefixed with a dot except the very last, which
stays bare.  This claim-side definition is compared with the chain the
source computes. -/
def specExtensionChain (tailParts : List String) : List String :=
  tailParts.dropLast.map (fun e => "." ++ e)
    ++ tailParts.drop (tailParts.length - 1)

/-- C3: for every path, the derived extension chain is the basename dot
split parts after the stem, dot-prefixed except the bare last element, the
terminal extension is that last bare element, and the concrete derivation of
/docs/report.sql.ts gives basename report.sql.ts, chain [.sql, ts], terminal
ts. -/
theorem pathExtensions_chain_shape (p : String) :
    (pathExtensions p).basename = basename p ∧
    (pathExtensions p).extensions
      = specExtensionChain ((splitParts (basename p)).drop 1) ∧
    (pathExtensions p).terminal
      = ((splitParts (basename p)).drop 1).getLastD "" ∧
    pathExtensions "/docs/report.sql.ts"
      = { basename := "report.sql.ts", extensions := [".sql", "ts"],
          terminal := "ts", autoMaterializable := some "/docs/report.auto.sql" } := by
  refine ⟨rfl, ?_, ?_, by decide⟩
  · show dotPrefixAllButLast ((splitParts (basename p)).drop 1) = _
    rw [dotPrefixAllButLast_eq]
    rfl
  · show (dotPrefixAllButLast ((splitParts (basename p)).drop 1)).getLastD "" = _
    exact getLastD_dotPrefixAllButLast _

/-- C9: over an already-built forest whose payload paths are distinct (the
path is the primary key of a record), the breadcrumb composition yields a
map whose keys are distinct, holding for every payload of any forest node
exactly one entry keyed by the payload path with the ancestor sequence of
that payload as value; the entry of a payload of a root node is the empty
sequence; and every iteration order over the forest nodes produces the same
entry for the payload, because each entry is computed from its payload
alone. -/
theorem composeBreadcrumbs_unique_entries {P : Type} [DecidableEq P]
    (pathOf : P → String) (f : PathForest P) (p : P)
    (hnodup : (((allNodesList f.roots).flatMap PathTreeNode.payloads).map pathOf).Nodup)
    (hp : p ∈ (allNodesList f.roots).flatMap PathTreeNode.payloads) :
    lookupField (breadcrumbsOf pathOf f) (pathOf p) = some (ancestorsOf f p) ∧
    ((breadcrumbsOf pathOf f).map Prod.fst).Nodup ∧
    (∀ r ∈ f.roots, p ∈ r.payloads → ancestorsOf f p = []) ∧
    (∀ nodes' : List (PathTreeNode P), (allNodesList f.roots).Perm nodes' →
      lookupField (composeBreadcrumbs pathOf (ancestorsOf f) nodes') (pathOf p)
        = some (ancestorsOf f p)) := by
  refine ⟨?_, ?_, ?_, ?_⟩
  · rw [breadcrumbsOf, composeBreadcrumbs_flatten]
    exact lookup_foldl_set_of_mem pathOf (ancestorsOf f) _ [] p hp hnodup
  · rw [breadcrumbsOf, composeBreadcrumbs_flatten]
    exact keys_foldl_set_nodup pathOf (ancestorsOf f) _ [] (by simp)
  · intro r hr hpr
    rw [ancestorsOf, ancestorsInList_root p f.roots (hnodup.of_map) r hr hpr]
    rfl
  · intro nodes' hperm
    rw [composeBreadcrumbs_flatten]
    have hpermf := List.Perm.flatMap_right PathTreeNode.payloads hperm
    exact lookup_foldl_set_of_mem pathOf (ancestorsOf f) _ [] p
      (hpermf.mem_iff.mp hp) ((hpermf.map pathOf).nodup hnodup)

/-- Witness for C9 at a two-node forest with a root payload. -/
theorem composeBreadcrumbs_unique_entries_witness :
    lookupField (breadcrumbsOf id (PathForest.mk [PathTreeNode.node "a" ["a"]
        [PathTreeNode.node "a/b" ["a/b"] []]])) (id "a")
      = some (ancestorsOf (PathForest.mk [PathTreeNode.node "a" ["a"]
          [PathTreeNode.node "a/b" ["a/b"] []]]) "a") ∧
    ((breadcrumbsOf id (PathForest.mk [PathTreeNode.node "a" ["a"]
        [PathTreeNode.node "a/b" ["a/b"] []]])).map Prod.fst).Nodup ∧
    (∀ r ∈ (PathForest.mk [PathTreeNode.node "a" ["a"]
        [PathTreeNode.node "a/b" ["a/b"] []]]).roots,
      ("a" : String) ∈ r.payloads →
      ancestorsOf (PathForest.mk [PathTreeNode.node "a" ["a"]
        [PathTreeNode.node "a/b" ["a/b"] []]]) "a" = []) ∧
    (∀ nodes' : List (PathTreeNode String),
      (allNodesList (PathForest.mk [PathTreeNode.node "a" ["a"]
        [PathTreeNode.node "a/b" ["a/b"] []]]).roots).Perm nodes' →
      lookupField (composeBreadcrumbs id
        (ancestorsOf (PathForest.mk [PathTreeNode.node "a" ["a"]
          [PathTreeNode.node "a/b" ["a/b"] []]])) nodes') (id "a")
        = some (ancestorsOf (PathForest.mk [PathTreeNode.node "a" ["a"]
            [PathTreeNode.node "a/b" ["a/b"] []]]) "a")) :=
  composeBreadcrumbs_unique_entries id
    (PathForest.mk [PathTreeNode.node "a" ["a"]
      [PathTreeNode.node "a/b" ["a/b"] []]]) "a" (by decide) (by decide)

